import Mathlib

/-!
Verification of the free-algebra-quotient and Moseley/Varchenko-Gelfand
algebra modules.

The development shallowly embeds the Python source
(`sage/algebras/free_algebra_quotient.py` and `sage/algebras/moseley.py`).
Noncommutative free-algebra elements are represented by association lists of
(word, rational coefficient) pairs kept in strictly decreasing degree-lex
order.  Python exceptions are represented by an explicit error type and
`Except`.  Pieces of the surrounding computer-algebra system that the two
files call but do not define (leading items of ring elements, word factor
occurrence search, overlap elements, the linear solver, chamber geometry)
are modelled from the specification; each such definition carries a
doc comment starting with `Modelled from the spec:`.
-/

/-- Python exception kinds relevant to the embedded code paths. -/
inductive PyErr where
  | typeError
  | nameError
  | valueError
  | keyError
  | indexError
  | assertionError
  | attributeError
  deriving DecidableEq, Repr

/-- A monomial of the free monoid: a word in the generators, written as the
list of generator indices. -/
abbrev FWord := List ℕ

/-- Strict lexicographic comparison of words of equal length, smaller
generator index first. -/
def lexLtW : FWord → FWord → Bool
  | [], [] => false
  | [], _ :: _ => true
  | _ :: _, [] => false
  | a :: v, b :: w => a < b || (a = b && lexLtW v w)

/-- Degree-lexicographic comparison on words: shorter words are smaller, and
words of equal length are compared lexicographically.  This is the term
order with respect to which the source takes leading items. -/
def deglexLt (v w : FWord) : Bool :=
  v.length < w.length || (v.length = w.length && lexLtW v w)

/-- An element of the free algebra over the rationals: an association list of
(word, coefficient) pairs.  Canonical representatives (`PolyCanon`) are
strictly decreasing in `deglexLt` with nonzero coefficients, so the head is
the leading item. -/
abbrev FAPoly := List (FWord × ℚ)

/-- The coefficient of a word in an element (summing repeated entries, so the
function is meaningful on non-canonical lists as well). -/
def coeffFA : FAPoly → FWord → ℚ
  | [], _ => 0
  | (w, c) :: rest, v => (if w = v then c else 0) + coeffFA rest v

/-- Add a single term into an element, keeping strictly-decreasing order and
dropping cancelled coefficients. -/
def addTermFA : FAPoly → FWord × ℚ → FAPoly
  | [], (w, c) => if c = 0 then [] else [(w, c)]
  | (w1, c1) :: rest, (w, c) =>
    if w = w1 then
      (if c + c1 = 0 then rest else (w, c + c1) :: rest)
    else if deglexLt w1 w then
      (if c = 0 then (w1, c1) :: rest else (w, c) :: (w1, c1) :: rest)
    else
      (w1, c1) :: addTermFA rest (w, c)

/-- Sum of two elements. -/
def addFA (p q : FAPoly) : FAPoly := q.foldl addTermFA p

/-- Negation of an element. -/
def negFA (p : FAPoly) : FAPoly := p.map (fun t => (t.1, -t.2))

/-- Difference of two elements. -/
def subFA (p q : FAPoly) : FAPoly := addFA p (negFA q)

/-- The product lw * (c * g) * rw of an element `g` with a scaled monomial on
the left and a monomial on the right; this is the shape of every element the
reduction loop subtracts. -/
def monoMulFA (lw : FWord) (c : ℚ) (g : FAPoly) (rw : FWord) : FAPoly :=
  g.foldl (fun acc t => addTermFA acc (lw ++ t.1 ++ rw, c * t.2)) []

/-- Whether the word `pat` occurs as a contiguous factor of `w` starting at
position `i`. -/
def matchesAt (pat w : FWord) (i : ℕ) : Bool :=
  decide (i + pat.length ≤ w.length ∧ (w.drop i).take pat.length = pat)

/-- Modelled from the spec: the Sage word method
`factor_occurrences_iterator`, of which the source takes only the first
element; returns the first position at which `pat` occurs as a contiguous
factor of `w`, if any. -/
def firstOcc (pat w : FWord) : Option ℕ :=
  (List.range (w.length + 1)).find? (fun i => matchesAt pat w i)

/-- Canonical form: strictly decreasing in deglex order and all coefficients
nonzero.  Then the head of the list is the leading item, matching the
source's `leading_item`. -/
def CanonFA (p : FAPoly) : Prop :=
  List.Pairwise (fun a b => deglexLt b.1 a.1 = true) p ∧ ∀ t ∈ p, t.2 ≠ 0

/-- One pass of the inner `while True` loop of `FreeAlgebraIdeal.reduce`
against a fixed basis element `g`, with explicit fuel (the source loop runs
until no occurrence is found; exhausted fuel returns the current remainder
unchanged).  Taking the head of a canonical list is the source's
`leading_item`; `Modelled from the spec:` a zero remainder has no leading
monomial, hence no occurrence is found and the loop moves on. -/
def reduceOneFA (g : FAPoly) : ℕ → FAPoly → FAPoly
  | 0, rem => rem
  | fuel + 1, rem =>
    match g.head? with
    | none => rem
    | some (lmG, lcG) =>
      match rem.head? with
      | none => rem
      | some (lmRem, lcRem) =>
        match firstOcc lmG lmRem with
        | none => rem
        | some i0 =>
          reduceOneFA g fuel
            (subFA rem
              (monoMulFA (lmRem.take i0) (lcRem / lcG) g
                (lmRem.drop (i0 + lmG.length))))

/-- The body of `FreeAlgebraIdeal.reduce` after the Groebner basis has been
computed: fold the per-generator loop over the basis in iteration order. -/
def reduceFA (gb : List FAPoly) (fuel : ℕ) (f : FAPoly) : FAPoly :=
  gb.foldl (fun rem g => reduceOneFA g fuel rem) f

/-- Membership in the two-sided ideal spanned by a list of generators, at the
level of coefficient functions: the closure of zero under adding terms of
the form lw * (c * g) * rw with g a generator. -/
inductive IsCombo (gb : List FAPoly) : (FWord → ℚ) → Prop where
  | zero : IsCombo gb (fun _ => 0)
  | add (F : FWord → ℚ) (lw : FWord) (c : ℚ) (g : FAPoly) (rw : FWord) :
      g ∈ gb → IsCombo gb F →
      IsCombo gb (fun w => F w + coeffFA (monoMulFA lw c g rw) w)

theorem coeffFA_addTermFA (p : FAPoly) (w : FWord) (c : ℚ) (v : FWord) :
    coeffFA (addTermFA p (w, c)) v = coeffFA p v + (if w = v then c else 0) := by
  induction p with
  | nil =>
    by_cases hc : c = 0
    · simp [addTermFA, hc, coeffFA]
    · simp only [addTermFA, hc, if_false, coeffFA]
      ring
  | cons t rest ih =>
    obtain ⟨w1, c1⟩ := t
    by_cases hw : w = w1
    · subst hw
      by_cases hz : c + c1 = 0
      · simp only [addTermFA, if_pos rfl, if_pos hz, coeffFA]
        by_cases hv : w = v
        · have : c = -c1 := by linarith
          simp [hv, this]
        · simp [hv]
      · simp only [addTermFA, if_pos rfl, if_neg hz, coeffFA]
        by_cases hv : w = v
        · simp [hv]; ring
        · simp [hv]
    · by_cases hlt : deglexLt w1 w
      · by_cases hc : c = 0
        · simp only [addTermFA, if_neg hw, hlt, if_true, if_pos hc, coeffFA, hc]
          simp
        · simp only [addTermFA, if_neg hw, hlt, if_true, if_neg hc, coeffFA]
          ring
      · simp only [addTermFA, if_neg hw, hlt, if_false, coeffFA, ih]
        ring

theorem coeffFA_addFA (p q : FAPoly) (v : FWord) :
    coeffFA (addFA p q) v = coeffFA p v + coeffFA q v := by
  induction q generalizing p with
  | nil => simp [addFA, coeffFA]
  | cons t q ih =>
    obtain ⟨w, c⟩ := t
    show coeffFA (addFA (addTermFA p (w, c)) q) v = _
    rw [ih, coeffFA_addTermFA]
    simp [coeffFA]
    ring

theorem coeffFA_negFA (p : FAPoly) (v : FWord) :
    coeffFA (negFA p) v = -coeffFA p v := by
  induction p with
  | nil => simp [negFA, coeffFA]
  | cons t rest ih =>
    obtain ⟨w, c⟩ := t
    simp only [negFA, List.map_cons, coeffFA] at *
    rw [ih]
    by_cases hv : w = v <;> simp [hv] <;> ring

theorem coeffFA_subFA (p q : FAPoly) (v : FWord) :
    coeffFA (subFA p q) v = coeffFA p v - coeffFA q v := by
  rw [subFA, coeffFA_addFA, coeffFA_negFA]
  ring

theorem coeffFA_monoMulFA_aux (lw : FWord) (c : ℚ) (rw : FWord) (g : FAPoly)
    (acc : FAPoly) (u : FWord) :
    coeffFA (g.foldl (fun a t => addTermFA a (lw ++ t.1 ++ rw, c * t.2)) acc)
        (lw ++ u ++ rw) =
      coeffFA acc (lw ++ u ++ rw) + c * coeffFA g u := by
  induction g generalizing acc with
  | nil => simp [coeffFA]
  | cons t g ih =>
    obtain ⟨w1, c1⟩ := t
    simp only [List.foldl_cons]
    rw [ih, coeffFA_addTermFA]
    have hiff : (lw ++ w1 ++ rw = lw ++ u ++ rw) ↔ w1 = u := by
      constructor
      · intro h
        have h1 : lw ++ (w1 ++ rw) = lw ++ (u ++ rw) := by
          simpa [List.append_assoc] using h
        have h2 : w1 ++ rw = u ++ rw := by
          exact List.append_cancel_left h1
        exact List.append_cancel_right h2
      · intro h; rw [h]
    by_cases hw : w1 = u
    · simp only [coeffFA, hiff, hw, if_true, eq_self_iff_true]
      ring
    · simp only [coeffFA, hiff, hw, if_false]
      ring

theorem coeffFA_monoMulFA (lw : FWord) (c : ℚ) (g : FAPoly) (rw : FWord)
    (u : FWord) :
    coeffFA (monoMulFA lw c g rw) (lw ++ u ++ rw) = c * coeffFA g u := by
  rw [monoMulFA, coeffFA_monoMulFA_aux]
  simp [coeffFA]

theorem IsCombo.congrFn {gb : List FAPoly} {F G : FWord → ℚ}
    (h : IsCombo gb F) (hFG : ∀ w, F w = G w) : IsCombo gb G := by
  have : F = G := funext hFG
  exact this ▸ h

theorem IsCombo.addFn {gb : List FAPoly} {F G : FWord → ℚ}
    (hF : IsCombo gb F) (hG : IsCombo gb G) :
    IsCombo gb (fun w => F w + G w) := by
  induction hG with
  | zero => exact hF.congrFn (by intro w; ring)
  | add G1 lw c g rw hg _ ih =>
    exact (IsCombo.add _ lw c g rw hg ih).congrFn (by intro w; ring)

theorem IsCombo.single {gb : List FAPoly} {g : FAPoly} (lw : FWord) (c : ℚ)
    (rw : FWord) (hg : g ∈ gb) :
    IsCombo gb (fun w => coeffFA (monoMulFA lw c g rw) w) :=
  (IsCombo.add _ lw c g rw hg IsCombo.zero).congrFn (by intro w; ring)

theorem reduceOneFA_combo (gb : List FAPoly) (g : FAPoly) (hg : g ∈ gb) :
    ∀ (fuel : ℕ) (rem : FAPoly),
      IsCombo gb (fun w => coeffFA rem w - coeffFA (reduceOneFA g fuel rem) w) := by
  intro fuel
  induction fuel with
  | zero =>
    intro rem
    exact IsCombo.zero.congrFn (by intro w; simp [reduceOneFA])
  | succ fuel ih =>
    intro rem
    rw [reduceOneFA]
    cases hgh : g.head? with
    | none => exact IsCombo.zero.congrFn (by intro w; ring)
    | some tG =>
      obtain ⟨lmG, lcG⟩ := tG
      cases hrh : rem.head? with
      | none => exact IsCombo.zero.congrFn (by intro w; ring)
      | some tR =>
        obtain ⟨lmRem, lcRem⟩ := tR
        cases hocc : firstOcc lmG lmRem with
        | none =>
          simp only [hocc]
          exact IsCombo.zero.congrFn (by intro w; ring)
        | some i0 =>
          simp only [hocc]
          set t := monoMulFA (lmRem.take i0) (lcRem / lcG) g
            (lmRem.drop (i0 + lmG.length)) with ht
          have h1 : IsCombo gb (fun w => coeffFA t w) :=
            IsCombo.single _ _ _ hg
          have h2 := ih (subFA rem t)
          exact (h1.addFn h2).congrFn
            (by intro w; rw [coeffFA_subFA]; ring)

theorem reduceFA_foldl_combo (gb : List FAPoly) :
    ∀ (L : List FAPoly), (∀ g ∈ L, g ∈ gb) → ∀ (fuel : ℕ) (f : FAPoly),
      IsCombo gb (fun w =>
        coeffFA f w -
          coeffFA (L.foldl (fun rem g => reduceOneFA g fuel rem) f) w) := by
  intro L
  induction L with
  | nil =>
    intro _ fuel f
    exact IsCombo.zero.congrFn (by intro w; simp)
  | cons g L ih =>
    intro hL fuel f
    have hg : g ∈ gb := hL g (by simp)
    have h1 := reduceOneFA_combo gb g hg fuel f
    have h2 := ih (fun g' hg' => hL g' (by simp [hg'])) fuel (reduceOneFA g fuel f)
    simp only [List.foldl_cons]
    exact (h1.addFn h2).congrFn (by intro w; ring)

theorem lexLtW_irrefl (w : FWord) : lexLtW w w = false := by
  induction w with
  | nil => rfl
  | cons a v ih => simp [lexLtW, ih]

theorem deglexLt_irrefl (w : FWord) : deglexLt w w = false := by
  simp [deglexLt, lexLtW_irrefl]

theorem coeffFA_eq_zero (p : FAPoly) (v : FWord) (h : ∀ t ∈ p, t.1 ≠ v) :
    coeffFA p v = 0 := by
  induction p with
  | nil => rfl
  | cons t rest ih =>
    obtain ⟨w, c⟩ := t
    have hw : w ≠ v := h (w, c) (by simp)
    simp only [coeffFA, if_neg hw, zero_add]
    exact ih (fun t ht => h t (by simp [ht]))

theorem coeffFA_leading (p : FAPoly) (w : FWord) (c : ℚ)
    (hp : CanonFA p) (hh : p.head? = some (w, c)) : coeffFA p w = c := by
  cases p with
  | nil => simp at hh
  | cons t rest =>
    simp only [List.head?_cons, Option.some.injEq] at hh
    subst hh
    obtain ⟨hpair, _⟩ := hp
    have hlt : ∀ b ∈ rest, deglexLt b.1 w = true :=
      fun b hb => (List.pairwise_cons.mp hpair).1 b hb
    have hne : ∀ b ∈ rest, b.1 ≠ w := by
      intro b hb heq
      have := hlt b hb
      rw [heq, deglexLt_irrefl] at this
      exact Bool.false_ne_true this
    simp [coeffFA, coeffFA_eq_zero rest w hne]

theorem leading_coeff_ne_zero (p : FAPoly) (w : FWord) (c : ℚ)
    (hp : CanonFA p) (hh : p.head? = some (w, c)) : c ≠ 0 := by
  cases p with
  | nil => simp at hh
  | cons t rest =>
    simp only [List.head?_cons, Option.some.injEq] at hh
    subst hh
    exact hp.2 (w, c) (by simp)

theorem firstOcc_decomp (pat w : FWord) (i0 : ℕ)
    (h : firstOcc pat w = some i0) :
    w.take i0 ++ pat ++ w.drop (i0 + pat.length) = w := by
  have hfind := List.find?_some h
  have hmatch : i0 + pat.length ≤ w.length ∧
      (w.drop i0).take pat.length = pat := by
    simpa [matchesAt] using hfind
  obtain ⟨_, htake⟩ := hmatch
  have hsplit : (w.drop i0).take pat.length ++ (w.drop i0).drop pat.length =
      w.drop i0 := List.take_append_drop _ _
  have hdrop : (w.drop i0).drop pat.length = w.drop (i0 + pat.length) := by
    simp [List.drop_drop, Nat.add_comm]
  calc w.take i0 ++ pat ++ w.drop (i0 + pat.length)
      = w.take i0 ++ ((w.drop i0).take pat.length ++ (w.drop i0).drop pat.length) := by
        rw [htake, hdrop, List.append_assoc]
    _ = w.take i0 ++ w.drop i0 := by rw [hsplit]
    _ = w := List.take_append_drop _ _

/-- C1.  The reduction routine `FreeAlgebraIdeal.reduce`: (1) for every
element `f`, every basis list and every fuel bound, the difference between
`f` and the returned remainder is a sum of two-sided monomial multiples of
basis elements, i.e. lies in the two-sided ideal generated by the computed
Groebner basis; (2) each step of the inner loop, locating the first
occurrence `i0` of the leading monomial of the basis element `g` inside the
remainder's leading monomial and subtracting the scaled left/right
multiplied `g`, cancels that leading term of the remainder; (3) when no
occurrence of the leading monomial of `g` is found, the remainder is
returned unchanged. -/
theorem C1_reduce_normal_form :
    (∀ (gb : List FAPoly) (fuel : ℕ) (f : FAPoly),
       IsCombo gb (fun w => coeffFA f w - coeffFA (reduceFA gb fuel f) w)) ∧
    (∀ (g rem : FAPoly) (lmG lmRem : FWord) (lcG lcRem : ℚ) (i0 : ℕ),
       CanonFA g → CanonFA rem →
       g.head? = some (lmG, lcG) → rem.head? = some (lmRem, lcRem) →
       firstOcc lmG lmRem = some i0 →
       coeffFA
         (subFA rem
           (monoMulFA (lmRem.take i0) (lcRem / lcG) g
             (lmRem.drop (i0 + lmG.length)))) lmRem = 0) ∧
    (∀ (g rem : FAPoly) (lmG lmRem : FWord) (lcG lcRem : ℚ) (fuel : ℕ),
       g.head? = some (lmG, lcG) → rem.head? = some (lmRem, lcRem) →
       firstOcc lmG lmRem = none →
       reduceOneFA g (fuel + 1) rem = rem) := by
  refine ⟨?_, ?_, ?_⟩
  · intro gb fuel f
    exact reduceFA_foldl_combo gb gb (fun g hg => hg) fuel f
  · intro g rem lmG lmRem lcG lcRem i0 hcg hcrem hgh hrh hocc
    rw [coeffFA_subFA]
    have h1 : coeffFA rem lmRem = lcRem := coeffFA_leading rem lmRem lcRem hcrem hrh
    have hdec := firstOcc_decomp lmG lmRem i0 hocc
    have h2 : coeffFA
        (monoMulFA (lmRem.take i0) (lcRem / lcG) g
          (lmRem.drop (i0 + lmG.length))) lmRem = (lcRem / lcG) * lcG := by
      have h2a := coeffFA_monoMulFA (lmRem.take i0) (lcRem / lcG) g
        (lmRem.drop (i0 + lmG.length)) lmG
      rw [hdec, coeffFA_leading g lmG lcG hcg hgh] at h2a
      exact h2a
    have h3 : lcG ≠ 0 := leading_coeff_ne_zero g lmG lcG hcg hgh
    rw [h1, h2, div_mul_cancel₀ _ h3]
    ring
  · intro g rem lmG lmRem lcG lcRem fuel hgh hrh hocc
    simp only [reduceOneFA, hgh, hrh, hocc]

/-- The generator x1*x2 - x2*x3 of the doctest ideal, with generators
numbered from 0; the leading item is (x2*x3, -1). -/
def gC1 : FAPoly := [([1, 2], -1), ([0, 1], 1)]

/-- The doctest element x1*x2*x3. -/
def fC1 : FAPoly := [([0, 1, 2], 1)]

/-- The doctest reduction: reducing x1*x2*x3 modulo the ideal generated by
x1*x2 - x2*x3 yields x1^2*x2, as in the source's TESTS block. -/
example : reduceFA [gC1] 5 fC1 = [([0, 0, 1], 1)] := by
  norm_num [reduceFA, reduceOneFA, gC1, fC1, firstOcc, matchesAt, subFA,
    addFA, negFA, monoMulFA, addTermFA, deglexLt, lexLtW, List.range,
    List.range.loop, List.find?]

/-- Witness for C1 at the doctest instance: all hypotheses hold and the
three conclusions are obtained by applying the theorem. -/
theorem C1_reduce_normal_form_witness :
    (CanonFA gC1 ∧ CanonFA fC1 ∧
      gC1.head? = some ([1, 2], (-1 : ℚ)) ∧
      fC1.head? = some ([0, 1, 2], (1 : ℚ)) ∧
      firstOcc [1, 2] [0, 1, 2] = some 1 ∧
      firstOcc [1, 2] [9] = none) ∧
    IsCombo [gC1] (fun w => coeffFA fC1 w - coeffFA (reduceFA [gC1] 5 fC1) w) ∧
    coeffFA
      (subFA fC1
        (monoMulFA (([0, 1, 2] : FWord).take 1) ((1 : ℚ) / (-1)) gC1
          (([0, 1, 2] : FWord).drop (1 + ([1, 2] : FWord).length))))
      [0, 1, 2] = 0 ∧
    reduceOneFA gC1 (3 + 1) [([9], (1 : ℚ))] = [([9], (1 : ℚ))] := by
  have hcg : CanonFA gC1 := by
    unfold CanonFA
    exact ⟨by decide, by decide⟩
  have hcf : CanonFA fC1 := by
    unfold CanonFA
    exact ⟨by decide, by decide⟩
  refine ⟨⟨hcg, hcf, by decide, by decide, by decide, by decide⟩, ?_, ?_, ?_⟩
  · exact C1_reduce_normal_form.1 [gC1] 5 fC1
  · exact C1_reduce_normal_form.2.1 gC1 fC1 [1, 2] [0, 1, 2] (-1) 1 1
      hcg hcf (by decide) (by decide) (by decide)
  · exact C1_reduce_normal_form.2.2 gC1 [([9], (1 : ℚ))] [1, 2] [9] (-1) 1 3
      (by decide) (by decide) (by decide)

/-- Insertion into a list modelling a Python set: no duplicates. -/
def insertNew {α : Type} [DecidableEq α] (l : List α) (x : α) : List α :=
  if x ∈ l then l else l ++ [x]

/-- The pairs produced by itertools.combinations(G, 2): all pairs of
distinct positions in iteration order. -/
def pairsOf {α : Type} : List α → List (α × α)
  | [] => []
  | x :: xs => xs.map (fun y => (x, y)) ++ pairsOf xs

/-- Modelled from the spec: the order in which Python sorted() lists ring
elements is supplied by the surrounding system, so the comparator is a
parameter; insertion of one element into a sorted list. -/
def insertSorted {α : Type} (ltB : α → α → Bool) (x : α) : List α → List α
  | [] => [x]
  | y :: ys => if ltB x y then x :: y :: ys else y :: insertSorted ltB x ys

/-- Insertion sort with the comparator `ltB`, modelling Python sorted(). -/
def sortByB {α : Type} (ltB : α → α → Bool) : List α → List α
  | [] => []
  | x :: xs => insertSorted ltB x (sortByB ltB xs)

/-- The overlap elements the source adds for one ordered pair, with the
walrus-operator truthiness test: `overlapEl` returns none when
`_overlap_element` returns a falsy (zero or None) value. -/
def addOverlap {α : Type} [DecidableEq α] (overlapEl : α → α → Option α)
    (acc : List α) (f g : α) : List α :=
  match overlapEl f g with
  | some o => insertNew acc o
  | none => acc

/-- The pending-overlap set built by the first loop of
`FreeAlgebraIdeal.groebner_basis`: both orientations for every
combinations(G, 2) pair. -/
def initialOverlaps {α : Type} [DecidableEq α]
    (overlapEl : α → α → Option α) (G : List α) : List α :=
  (pairsOf G).foldl
    (fun acc fg => addOverlap overlapEl (addOverlap overlapEl acc fg.1 fg.2) fg.2 fg.1)
    []

/-- The `while O:` loop of `FreeAlgebraIdeal.groebner_basis`, transcribed
with its defects: on reaching the size cap the source calls
`warnings.warn`, but the module never imports `warnings`, so the name
lookup raises NameError; `G = G.add(r)` rebinds `G` to None (Python
`set.add` returns None), after which the `O.update` comprehension iterating
`G` raises the TypeError that the `except TypeError: continue` swallows; a
second nonzero reduction would call `None.add` (AttributeError), and
`sorted(None)` raises TypeError.  `G : Option (List α)` models the
possibly-None binding, `fuel` makes the loop total (exhaustion returns
none, a value no Python run produces). -/
def gbLoop {α : Type} [DecidableEq α]
    (reduceMod : α → Option (List α) → Except PyErr α)
    (truthy : α → Bool) (ltB : α → α → Bool) (maxSize : ℕ) :
    ℕ → List α → Option (List α) → ℕ → Option (Except PyErr (List α))
  | _, [], none, _ => some (.error .typeError)
  | _, [], some l, _ => some (.ok (sortByB ltB l))
  | 0, _ :: _, _, counter =>
    if maxSize ≤ counter then some (.error .nameError) else none
  | fuel1 + 1, o :: orest, G, counter =>
    if maxSize ≤ counter then some (.error .nameError)
    else
      match reduceMod o G with
      | .error e => some (.error e)
      | .ok r =>
        if truthy r then
          match G with
          | some _ => gbLoop reduceMod truthy ltB maxSize fuel1 orest none (counter + 1)
          | none => some (.error .attributeError)
        else gbLoop reduceMod truthy ltB maxSize fuel1 orest G counter

/-- `FreeAlgebraIdeal.groebner_basis(max_size)`.  The element type and the
four collaborators the two-file source does not define
(`_overlap_element`, `reduce_mod`, element truthiness, the sorted() order)
are parameters; the control flow is the source's. -/
def groebnerBasisG {α : Type} [DecidableEq α]
    (overlapEl : α → α → Option α)
    (reduceMod : α → Option (List α) → Except PyErr α)
    (truthy : α → Bool) (ltB : α → α → Bool)
    (gens : List α) (maxSize fuel : ℕ) : Option (Except PyErr (List α)) :=
  let G := gens.dedup
  gbLoop reduceMod truthy ltB maxSize fuel (initialOverlaps overlapEl G)
    (some G) G.length

/-- Modelled from the spec: `_overlap_element(f, g)` forms the critical pair
arising when a nonempty suffix of the leading monomial of `f` equals a
prefix of the leading monomial of `g`; with lm(f) = a ++ w and
lm(g) = w ++ b, the overlap element is f*b/lc(f) - a*g/lc(g), and a zero
result is falsy.  Returns the overlap at the shortest such suffix. -/
def overlapWord (u v : FWord) : Option ℕ :=
  (List.range (min u.length v.length + 1)).find?
    (fun k => decide (k ≠ 0 ∧ u.drop (u.length - k) = v.take k))

/-- Modelled from the spec: the overlap element of two free-algebra
elements, in the given orientation. -/
def specOverlapElement (f g : FAPoly) : Option FAPoly :=
  match f.head?, g.head? with
  | some (lmF, lcF), some (lmG, lcG) =>
    match overlapWord lmF lmG with
    | none => none
    | some k =>
      let a := lmF.take (lmF.length - k)
      let b := lmG.drop k
      let o := subFA (monoMulFA [] (1 / lcF) f b) (monoMulFA a (1 / lcG) g [])
      if o = [] then none else some o
  | _, _ => none

/-- Modelled from the spec: `reduce_mod(o, G)` reduces the overlap element
against the current basis; iterating a None basis raises TypeError. -/
def specReduceMod (o : FAPoly) (G : Option (List FAPoly)) :
    Except PyErr FAPoly :=
  match G with
  | some l => .ok (reduceFA l 100 o)
  | none => .error .typeError

/-- Python truthiness of a free-algebra element: nonzero. -/
def truthyFA (p : FAPoly) : Bool := !p.isEmpty

/-- Modelled from the spec: a comparator on free-algebra elements for
Python sorted(); the resolution order is arbitrary, so any total
comparator is a faithful model. -/
def polyLtB : FAPoly → FAPoly → Bool
  | [], [] => false
  | [], _ :: _ => true
  | _ :: _, [] => false
  | a :: p, b :: q =>
    deglexLt a.1 b.1 ||
      (a.1 = b.1 && (decide (a.2 < b.2) || (a.2 = b.2 && polyLtB p q)))

/-- `FreeAlgebraIdeal.groebner_basis` instantiated at rational
free-algebra elements with the spec-modelled collaborators. -/
def groebnerBasisQ (gens : List FAPoly) (maxSize fuel : ℕ) :
    Option (Except PyErr (List FAPoly)) :=
  groebnerBasisG specOverlapElement specReduceMod truthyFA polyLtB gens
    maxSize fuel

theorem pairsOf_ne_of_nodup {α : Type} (l : List α) (hl : l.Nodup) :
    ∀ p ∈ pairsOf l, p.1 ≠ p.2 := by
  induction l with
  | nil => intro p hp; simp [pairsOf] at hp
  | cons x xs ih =>
    intro p hp
    rw [List.nodup_cons] at hl
    simp only [pairsOf, List.mem_append, List.mem_map] at hp
    rcases hp with ⟨y, hy, rfl⟩ | hp
    · intro hxy
      have hxy2 : x = y := hxy
      exact hl.1 (by rw [hxy2]; exact hy)
    · exact ih hl.2 p hp

/-- C10.  The overlap-forming loop of `groebner_basis` only pairs distinct
generators (itertools.combinations of the deduplicated generator set),
and for a single generator the pending-overlap set starts empty, so
`groebner_basis` returns the sorted one-element list unchanged without
reducing anything and without reaching the warning branch. -/
theorem C10_groebner_single_generator :
    (∀ (g : FAPoly) (maxSize fuel : ℕ),
       groebnerBasisQ [g] maxSize fuel = some (.ok [g])) ∧
    (∀ {α : Type} [DecidableEq α] (gens : List α),
       ∀ p ∈ pairsOf gens.dedup, p.1 ≠ p.2) := by
  constructor
  · intro g maxSize fuel
    have hd : ([g] : List FAPoly).dedup = [g] := by simp
    simp only [groebnerBasisQ, groebnerBasisG, hd]
    have hO : initialOverlaps specOverlapElement [g] = [] := by
      simp [initialOverlaps, pairsOf]
    rw [hO]
    simp [gbLoop, sortByB, insertSorted]
  · intro α _ gens
    exact pairsOf_ne_of_nodup gens.dedup gens.nodup_dedup

/-- Witness for C10: a concrete generator for the first part, and a
concrete pair from a two-generator set for the second. -/
theorem C10_groebner_single_generator_witness :
    groebnerBasisQ [gC1] 100 7 = some (.ok [gC1]) ∧
    ((3, 8) ∈ pairsOf ([3, 8] : List ℕ).dedup ∧ (3 : ℕ) ≠ 8) := by
  refine ⟨C10_groebner_single_generator.1 gC1 100 7, ?_, by decide⟩
  · have := C10_groebner_single_generator.2 (α := ℕ) [3, 8]
    decide

/-- C2 (code defect).  Whenever the `while O:` loop of `groebner_basis`
is entered with the basis size at or above `max_size` and overlaps still
pending, the source executes `warnings.warn(...)`; the module never
imports `warnings`, so instead of emitting a warning and returning the
partial basis the call raises NameError.  Stated for the loop entered
from `groebner_basis` with any collaborators: a nonempty initial overlap
set together with at least `max_size` deduplicated generators produces
the NameError outcome. -/
theorem C2_groebner_cap_raises_name_error {α : Type} [DecidableEq α]
    (overlapEl : α → α → Option α)
    (reduceMod : α → Option (List α) → Except PyErr α)
    (truthy : α → Bool) (ltB : α → α → Bool)
    (gens : List α) (maxSize fuel : ℕ)
    (hO : initialOverlaps overlapEl gens.dedup ≠ [])
    (hcap : maxSize ≤ gens.dedup.length) :
    groebnerBasisG overlapEl reduceMod truthy ltB gens maxSize fuel =
      some (.error .nameError) := by
  rw [groebnerBasisG]
  cases hOv : initialOverlaps overlapEl gens.dedup with
  | nil => exact absurd hOv hO
  | cons o orest =>
    cases fuel with
    | zero => simp [gbLoop, hcap]
    | succ fuel1 => simp [gbLoop, hcap]

/-- Witness for C2 at a concrete failing input: two distinct generators
x0*x1 - x2 and x1*x0 - x2 whose leading monomials overlap, with
max_size = 2; the hypotheses hold and the call produces the NameError
outcome instead of a warning. -/
theorem C2_groebner_cap_raises_name_error_witness :
    (initialOverlaps (fun a b : ℕ => some (a + b)) ([4, 9] : List ℕ).dedup ≠ [] ∧
      2 ≤ ([4, 9] : List ℕ).dedup.length) ∧
    groebnerBasisG (fun a b : ℕ => some (a + b)) (fun o _ => .ok o)
      (fun _ => true) (fun a b => decide (a < b)) [4, 9] 2 50 =
        some (.error .nameError) :=
  ⟨⟨by decide, by decide⟩,
    C2_groebner_cap_raises_name_error (fun a b => some (a + b))
      (fun o _ => .ok o) (fun _ => true) (fun a b => decide (a < b))
      [4, 9] 2 50 (by decide) (by decide)⟩

/-- A matrix over the base ring, stored as a list of rows. -/
abbrev QMat := List (List ℚ)

/-- The state a successfully constructed FreeAlgebraQuotient stores:
number of free generators, the dimension `len(mons)`, the action matrices,
the monomial basis, and the dimension of the FreeModule built from it. -/
structure FAQuot where
  freeNgens : ℕ
  dim : ℕ
  matrixAction : List QMat
  monomialBasis : List FWord
  moduleDim : ℕ
  deriving DecidableEq, Repr

/-- `FreeAlgebraQuotient.__init__`: `if not is_FreeAlgebra(A): raise
TypeError`; then `assert n == len(mats)` (an AssertionError, not a
TypeError, on mismatch); on success stores n, dim = len(mons), the
module FreeModule(R, dim), the matrices and the monomial basis. -/
def mkFreeAlgebraQuotient (isFreeAlgebra : Bool) (ngensA : ℕ)
    (mons : List FWord) (mats : List QMat) : Except PyErr FAQuot :=
  if !isFreeAlgebra then .error .typeError
  else if ngensA ≠ mats.length then .error .assertionError
  else .ok ⟨ngensA, mons.length, mats, mons, mons.length⟩

/-- `FreeAlgebraQuotient.ngens`. -/
def FAQuot.ngens (H : FAQuot) : ℕ := H.freeNgens

/-- `FreeAlgebraQuotient.dimension`. -/
def FAQuot.dimension (H : FAQuot) : ℕ := H.dim

/-- `FreeAlgebraQuotient.rank`. -/
def FAQuot.rank (H : FAQuot) : ℕ := H.dim

/-- `FreeAlgebraQuotient.module().dimension()`: the dimension of the free
module created in the constructor. -/
def FAQuot.moduleDimension (H : FAQuot) : ℕ := H.moduleDim

/-- `FreeAlgebraQuotient.gen(i)`: the source checks `i < 0 or not i < n`
and raises IndexError, else returns the element with coefficient
dictionary mapping the i-th free-monoid generator to one. -/
def FAQuot.gen (H : FAQuot) (i : ℤ) : Except PyErr (List (FWord × ℚ)) :=
  if i < 0 ∨ ¬ i < (H.freeNgens : ℤ) then .error .indexError
  else .ok [([i.toNat], 1)]

/-- C3.  `gen(i)` raises IndexError exactly when `i < 0` or
`i >= ngens` (negative indices are rejected, not wrapped), and for
`0 <= i < ngens` it returns the element whose coefficient dictionary maps
the i-th free-monoid generator to one. -/
theorem C3_gen_index_check (H : FAQuot) (i : ℤ) :
    (H.gen i = .error .indexError ↔ i < 0 ∨ (H.freeNgens : ℤ) ≤ i) ∧
    (0 ≤ i → i < (H.freeNgens : ℤ) →
      H.gen i = .ok [([i.toNat], 1)]) := by
  constructor
  · rw [FAQuot.gen]
    split_ifs with h
    · simp only [true_iff]
      rcases h with h | h
      · exact Or.inl h
      · exact Or.inr (by omega)
    · simp only [false_iff]
      push_neg at h ⊢
      exact ⟨h.1, by omega⟩
  · intro h0 hn
    rw [FAQuot.gen, if_neg]
    push_neg
    exact ⟨by omega, hn⟩

/-- The Hamilton quaternion matrices of `hamilton_quatalg` (also the
matrices of the doctest in `FreeAlgebraQuotient.__init__`). -/
def hamiltonMats : List QMat :=
  [[[0, 1, 0, 0], [-1, 0, 0, 0], [0, 0, 0, -1], [0, 0, 1, 0]],
   [[0, 0, 1, 0], [0, 0, 0, 1], [-1, 0, 0, 0], [0, -1, 0, 0]],
   [[0, 0, 0, 1], [0, 0, -1, 0], [0, 1, 0, 0], [-1, 0, 0, 0]]]

/-- The monomial basis [1, i, j, k] of `hamilton_quatalg` as words. -/
def hamiltonMons : List FWord := [[], [0], [1], [2]]

/-- The quotient state `hamilton_quatalg` builds. -/
def hamiltonFAQuot : FAQuot :=
  ⟨3, 4, hamiltonMats, hamiltonMons, 4⟩

/-- Witness for C3: on the Hamilton quaternion algebra, gen 1 succeeds
with the dictionary mapping the free-monoid generator 1 to one, gen 3 and
gen (-1) give IndexError. -/
theorem C3_gen_index_check_witness :
    ((0 : ℤ) ≤ 1 ∧ (1 : ℤ) < (hamiltonFAQuot.freeNgens : ℤ) ∧
      hamiltonFAQuot.gen 1 = .ok [([1], 1)]) ∧
    (hamiltonFAQuot.gen 3 = .error .indexError ↔
      (3 : ℤ) < 0 ∨ (hamiltonFAQuot.freeNgens : ℤ) ≤ 3) ∧
    (hamiltonFAQuot.gen (-1) = .error .indexError ↔
      (-1 : ℤ) < 0 ∨ (hamiltonFAQuot.freeNgens : ℤ) ≤ -1) :=
  ⟨⟨by decide, by decide,
      (C3_gen_index_check hamiltonFAQuot 1).2 (by decide) (by decide)⟩,
    (C3_gen_index_check hamiltonFAQuot 3).1,
    (C3_gen_index_check hamiltonFAQuot (-1)).1⟩

/-- C6 (counterexample).  A construction with a genuine free algebra but a
mismatched matrix count fails with an AssertionError, not the TypeError
the claim asserts for every invalid input. -/
theorem C6_counterexample :
    mkFreeAlgebraQuotient true 2 hamiltonMons [hamiltonMats.headI] =
      .error .assertionError ∧
    (Except.error PyErr.assertionError : Except PyErr FAQuot) ≠
      .error .typeError := by
  constructor
  · rfl
  · simp

/-- C6 (amended).  Construction fails with TypeError when the first
argument is not a free algebra; with a free algebra it fails with an
AssertionError when the matrix count differs from the generator count;
and it succeeds exactly when both conditions hold. -/
theorem C6_construction_validation (isFA : Bool) (ngensA : ℕ)
    (mons : List FWord) (mats : List QMat) :
    (isFA = false →
      mkFreeAlgebraQuotient isFA ngensA mons mats = .error .typeError) ∧
    (isFA = true → ngensA ≠ mats.length →
      mkFreeAlgebraQuotient isFA ngensA mons mats = .error .assertionError) ∧
    (isFA = true → ngensA = mats.length →
      mkFreeAlgebraQuotient isFA ngensA mons mats =
        .ok ⟨ngensA, mons.length, mats, mons, mons.length⟩) := by
  refine ⟨?_, ?_, ?_⟩
  · intro h; subst h; rfl
  · intro h hne; subst h
    rw [mkFreeAlgebraQuotient, if_neg (by simp), if_pos hne]
  · intro h heq; subst h
    rw [mkFreeAlgebraQuotient, if_neg (by simp), if_neg (by omega)]

/-- Witness for the amended C6 at concrete inputs: a non-free-algebra
first argument, a count mismatch, and a valid Hamilton construction. -/
theorem C6_construction_validation_witness :
    mkFreeAlgebraQuotient false 3 hamiltonMons hamiltonMats =
      .error .typeError ∧
    mkFreeAlgebraQuotient true 2 hamiltonMons [hamiltonMats.headI] =
      .error .assertionError ∧
    mkFreeAlgebraQuotient true 3 hamiltonMons hamiltonMats =
      .ok hamiltonFAQuot :=
  ⟨(C6_construction_validation false 3 hamiltonMons hamiltonMats).1 rfl,
    (C6_construction_validation true 2 hamiltonMons
      [hamiltonMats.headI]).2.1 rfl (by decide),
    (C6_construction_validation true 3 hamiltonMons hamiltonMats).2.2 rfl
      (by decide)⟩

/-- C9.  Every successfully constructed quotient satisfies the stored
invariants, and they are preserved afterwards because the stored state is
never mutated: the matrix count equals the free-generator count, and
dimension() = rank() = len(monomial_basis()) = module().dimension(). -/
theorem C9_constructed_invariants (isFA : Bool) (ngensA : ℕ)
    (mons : List FWord) (mats : List QMat) (H : FAQuot)
    (h : mkFreeAlgebraQuotient isFA ngensA mons mats = .ok H) :
    H.matrixAction.length = H.ngens ∧
    H.dimension = H.monomialBasis.length ∧
    H.rank = H.dimension ∧
    H.moduleDimension = H.dimension := by
  rw [mkFreeAlgebraQuotient] at h
  split_ifs at h with h1 h2
  obtain rfl : (⟨ngensA, mons.length, mats, mons, mons.length⟩ : FAQuot) = H :=
    by injection h
  refine ⟨?_, rfl, rfl, rfl⟩
  simp [FAQuot.ngens]
  omega

/-- Witness for C9: the Hamilton quaternion construction. -/
theorem C9_constructed_invariants_witness :
    mkFreeAlgebraQuotient true 3 hamiltonMons hamiltonMats =
      .ok hamiltonFAQuot ∧
    (hamiltonFAQuot.matrixAction.length = hamiltonFAQuot.ngens ∧
      hamiltonFAQuot.dimension = hamiltonFAQuot.monomialBasis.length ∧
      hamiltonFAQuot.rank = hamiltonFAQuot.dimension ∧
      hamiltonFAQuot.moduleDimension = hamiltonFAQuot.dimension) :=
  ⟨rfl,
    C9_constructed_invariants true 3 hamiltonMons hamiltonMats
      hamiltonFAQuot rfl⟩

/-- An element of the rank-4 free module underlying the quaternion
quotient: coordinates with respect to the monomial basis [1, i, j, k]. -/
structure Vec4 (R : Type) where
  e0 : R
  e1 : R
  e2 : R
  e3 : R
  deriving DecidableEq, Repr

/-- A 4 x 4 action matrix, stored as its four rows. -/
structure Mat4 (R : Type) where
  r0 : Vec4 R
  r1 : Vec4 R
  r2 : Vec4 R
  r3 : Vec4 R

/-- Coordinatewise sum. -/
def Vec4.add {R : Type} [CommRing R] (a b : Vec4 R) : Vec4 R :=
  ⟨a.e0 + b.e0, a.e1 + b.e1, a.e2 + b.e2, a.e3 + b.e3⟩

/-- Scalar multiple. -/
def Vec4.smul {R : Type} [CommRing R] (c : R) (v : Vec4 R) : Vec4 R :=
  ⟨c * v.e0, c * v.e1, c * v.e2, c * v.e3⟩

/-- Row vector times matrix: the action of one generator matrix on a
coordinate vector. -/
def Vec4.vecMat {R : Type} [CommRing R] (v : Vec4 R) (m : Mat4 R) : Vec4 R :=
  ((Vec4.smul v.e0 m.r0).add (Vec4.smul v.e1 m.r1)).add
    ((Vec4.smul v.e2 m.r2).add (Vec4.smul v.e3 m.r3))

/-- The first structure matrix of `hamilton_quatalg` (action of i). -/
def hamiltonM0 (R : Type) [CommRing R] : Mat4 R :=
  ⟨⟨0, 1, 0, 0⟩, ⟨-1, 0, 0, 0⟩, ⟨0, 0, 0, -1⟩, ⟨0, 0, 1, 0⟩⟩

/-- The second structure matrix of `hamilton_quatalg` (action of j). -/
def hamiltonM1 (R : Type) [CommRing R] : Mat4 R :=
  ⟨⟨0, 0, 1, 0⟩, ⟨0, 0, 0, 1⟩, ⟨-1, 0, 0, 0⟩, ⟨0, -1, 0, 0⟩⟩

/-- The third structure matrix of `hamilton_quatalg` (action of k). -/
def hamiltonM2 (R : Type) [CommRing R] : Mat4 R :=
  ⟨⟨0, 0, 0, 1⟩, ⟨0, 0, -1, 0⟩, ⟨0, 1, 0, 0⟩, ⟨-1, 0, 0, 0⟩⟩

/-- Modelled from the spec: multiplication of quotient-algebra elements
(the element class is outside the two source files) accumulates, for each
monomial term of the left operand, its coefficient times the action of the
corresponding generator matrices on the right operand's coordinate vector;
the basis monomials here are 1, i, j, k with words [], [0], [1], [2]. -/
def quatMul {R : Type} [CommRing R] (x y : Vec4 R) : Vec4 R :=
  ((Vec4.smul x.e0 y).add (Vec4.smul x.e1 (y.vecMat (hamiltonM0 R)))).add
    ((Vec4.smul x.e2 (y.vecMat (hamiltonM1 R))).add
      (Vec4.smul x.e3 (y.vecMat (hamiltonM2 R))))

/-- Iterated multiplication x^n with x^0 the unit 1 of the algebra. -/
def quatPow {R : Type} [CommRing R] (x : Vec4 R) : ℕ → Vec4 R
  | 0 => ⟨1, 0, 0, 0⟩
  | n + 1 => quatMul x (quatPow x n)

/-- Coordinatewise application of a map. -/
def Vec4.map {R S : Type} (f : R → S) (v : Vec4 R) : Vec4 S :=
  ⟨f v.e0, f v.e1, f v.e2, f v.e3⟩

theorem quatMul_map {R S : Type} [CommRing R] [CommRing S] (f : R →+* S)
    (x y : Vec4 R) :
    (quatMul x y).map f = quatMul (x.map f) (y.map f) := by
  simp [quatMul, Vec4.map, Vec4.add, Vec4.smul, Vec4.vecMat, hamiltonM0,
    hamiltonM1, hamiltonM2, map_add, map_mul, map_neg, map_zero, map_one]

theorem quatPow_map {R S : Type} [CommRing R] [CommRing S] (f : R →+* S)
    (x : Vec4 R) (n : ℕ) :
    (quatPow x n).map f = quatPow (x.map f) n := by
  induction n with
  | zero => simp [quatPow, Vec4.map, map_zero, map_one]
  | succ n ih => rw [quatPow, quatMul_map, ih, quatPow]

set_option maxRecDepth 40000 in
/-- C5.  In the quotient built from the monomial basis [1, i, j, k] and the
three quaternion structure matrices over the rationals, the element
1 + i + j + k raised to the 128th power is
-2^127 + 2^127 i + 2^127 j + 2^127 k, as the doctest in
`FreeAlgebraQuotient.__init__` records. -/
theorem C5_quaternion_power_128 :
    quatPow (⟨1, 1, 1, 1⟩ : Vec4 ℚ) 128 =
      ⟨-(2 ^ 127), 2 ^ 127, 2 ^ 127, 2 ^ 127⟩ := by
  have hZ : quatPow (⟨1, 1, 1, 1⟩ : Vec4 ℤ) 128 =
      ⟨-(2 ^ 127), 2 ^ 127, 2 ^ 127, 2 ^ 127⟩ := by decide
  have hmap := congrArg (Vec4.map (Int.castRingHom ℚ)) hZ
  rw [quatPow_map] at hmap
  have h1 : Vec4.map (Int.castRingHom ℚ) (⟨1, 1, 1, 1⟩ : Vec4 ℤ) =
      (⟨1, 1, 1, 1⟩ : Vec4 ℚ) := by
    simp [Vec4.map]
  have h2 : Vec4.map (Int.castRingHom ℚ)
      (⟨-(2 ^ 127), 2 ^ 127, 2 ^ 127, 2 ^ 127⟩ : Vec4 ℤ) =
      (⟨-(2 ^ 127), 2 ^ 127, 2 ^ 127, 2 ^ 127⟩ : Vec4 ℚ) := by
    simp [Vec4.map]
    norm_num
  rw [h1, h2] at hmap
  exact hmap

/-- `VarchenkoGelfandAlgebra.covectors_in_cone`.  The region covectors
(sign vectors of representative points of `A.regions()`, produced by the
hyperplane-arrangement machinery outside the two source files) are passed
as a list; the source keeps a covector when `cone_mask[i] / covector[i]`
is nonnegative for every position (Python true division of integers;
region covector entries are never zero), and returns the kept covectors
converted to tuples. -/
def covectorsInCone (regionCovectors : List (List ℤ)) (mask : List ℤ) :
    List (List ℤ) :=
  regionCovectors.filter (fun v =>
    decide (∀ i < v.length, (0 : ℚ) ≤ (mask.getD i 0 : ℚ) / (v.getD i 0 : ℚ)))

theorem div_sign_nonneg_iff (m e : ℤ) (he : e = 1 ∨ e = -1) :
    ((0 : ℚ) ≤ (m : ℚ) / (e : ℚ)) ↔ 0 ≤ m * e := by
  rcases he with rfl | rfl
  · push_cast
    simp
  · push_cast
    have h1 : (m : ℚ) / (-1 : ℚ) = -(m : ℚ) := by ring
    rw [h1, mul_neg_one, le_neg, neg_zero, le_neg, neg_zero]
    exact_mod_cast Iff.rfl

/-- C8.  For a sign mask over the hyperplane indices, covectors_in_cone
returns exactly the region covectors whose coordinatewise product with the
mask is nonnegative in every position, and no others, provided the region
covectors consist of the signs 1 and -1 (as sign vectors of open regions
always do). -/
theorem C8_covectors_in_cone (regions : List (List ℤ)) (mask : List ℤ)
    (hpm : ∀ v ∈ regions, ∀ x ∈ v, x = 1 ∨ x = -1) :
    ∀ v, v ∈ covectorsInCone regions mask ↔
      (v ∈ regions ∧ ∀ i < v.length, 0 ≤ mask.getD i 0 * v.getD i 0) := by
  intro v
  simp only [covectorsInCone, List.mem_filter, decide_eq_true_eq]
  constructor
  · rintro ⟨hv, hall⟩
    refine ⟨hv, fun i hi => ?_⟩
    have he : v.getD i 0 = 1 ∨ v.getD i 0 = -1 := by
      apply hpm v hv
      rw [List.getD_eq_getElem v 0 hi]
      exact List.getElem_mem hi
    exact (div_sign_nonneg_iff _ _ he).mp (hall i hi)
  · rintro ⟨hv, hall⟩
    refine ⟨hv, fun i hi => ?_⟩
    have he : v.getD i 0 = 1 ∨ v.getD i 0 = -1 := by
      apply hpm v hv
      rw [List.getD_eq_getElem v 0 hi]
      exact List.getElem_mem hi
    exact (div_sign_nonneg_iff _ _ he).mpr (hall i hi)

/-- The six chamber covectors of the braid(3) arrangement, in the order of
the doctest of `Covector.to_polynomial_on_basis`. -/
def braidCovectors : List (List ℤ) :=
  [[1, 1, 1], [1, -1, 1], [1, -1, -1], [-1, -1, -1], [-1, 1, -1], [-1, 1, 1]]

/-- Witness for C8 on the braid(3) chamber covectors with the mask that
selects the positive half-space of hyperplane 1: the sign hypothesis holds
and the membership characterization follows by applying the theorem. -/
theorem C8_covectors_in_cone_witness :
    (∀ v ∈ braidCovectors, ∀ x ∈ v, x = 1 ∨ x = -1) ∧
    ([1, 1, 1] ∈ covectorsInCone braidCovectors [0, 1, 0] ↔
      ([1, 1, 1] ∈ braidCovectors ∧
        ∀ i < ([1, 1, 1] : List ℤ).length,
          0 ≤ ([0, 1, 0] : List ℤ).getD i 0 * ([1, 1, 1] : List ℤ).getD i 0)) :=
  ⟨by decide, C8_covectors_in_cone braidCovectors [0, 1, 0] (by decide) [1, 1, 1]⟩

/-- A squarefree monomial in x0, x1, x2: which of the three variables
occur.  Under the idempotent relations x_i^2 = x_i of the braid(3)
Varchenko-Gelfand ideal every polynomial is equivalent to a multilinear
one, so these eight monomials span the quotient before the circuit
relation is applied. -/
abbrev Mon3 := Bool × Bool × Bool

/-- An element of the braid(3) quotient ring, as integer coefficients on
squarefree monomials (every element the concrete claims touch is
integral). -/
abbrev MPoly3 := Mon3 → ℤ

/-- All eight squarefree monomials. -/
def allMon3 : List Mon3 :=
  [(false, false, false), (true, false, false), (false, true, false),
   (false, false, true), (true, true, false), (true, false, true),
   (false, true, true), (true, true, true)]

/-- Product of squarefree monomials: union of supports (this encodes the
idempotent generators x_i^2 - x_i * z0 with z0 = 1). -/
def mon3Or (s t : Mon3) : Mon3 :=
  (s.1 || t.1, s.2.1 || t.2.1, s.2.2 || t.2.2)

/-- Multiplication of multilinear polynomials. -/
def mulMP (a b : MPoly3) : MPoly3 := fun u =>
  (allMon3.map (fun s =>
    (allMon3.map (fun t => if mon3Or s t = u then a s * b t else 0)).sum)).sum

/-- Normal form modulo the circuit relation -x0*x1 + x0*x2 + x1*x2 - x2 of
the braid(3) ideal (the fourth ideal generator shown in the doctest of
`underlying_polynomial_ring`): any monomial containing x0*x1 rewrites to
x0*x2 + x1*x2 - x2.  The surviving monomials are exactly the normal basis
[x1*x2, x0*x2, x2, x1, x0, 1] that Sage computes for this ideal. -/
def nfMP (p : MPoly3) : MPoly3 := fun u =>
  let t := p (true, true, false) + p (true, true, true)
  match u with
  | (true, true, false) => 0
  | (true, true, true) => 0
  | (true, false, true) => p u + t
  | (false, true, true) => p u + t
  | (false, false, true) => p u - t
  | _ => p u

/-- Multiplication in the quotient ring: polynomial product followed by
reduction to normal form. -/
def qmul (a b : MPoly3) : MPoly3 := nfMP (mulMP a b)

/-- The unit of the quotient ring. -/
def qone : MPoly3 := fun u => if u = (false, false, false) then 1 else 0

/-- Coordinatewise difference. -/
def qsub (a b : MPoly3) : MPoly3 := fun u => a u - b u

/-- The monomial of a single variable. -/
def varMon : Fin 3 → Mon3
  | 0 => (true, false, false)
  | 1 => (false, true, false)
  | 2 => (false, false, true)

/-- The generator x_i of the quotient ring. -/
def xvar (i : Fin 3) : MPoly3 := fun u => if u = varMon i then 1 else 0

/-- The variable indices occurring in a squarefree monomial, ascending. -/
def monIndices (m : Mon3) : List (Fin 3) :=
  (if m.1 then [(0 : Fin 3)] else []) ++
    (if m.2.1 then [(1 : Fin 3)] else []) ++
    (if m.2.2 then [(2 : Fin 3)] else [])

/-- `R.prod(x[i] for i in indices)` in the quotient ring: the shape of
`to_polynomial_on_basis` for the normal and NBC bases. -/
def prodVarsQ (l : List (Fin 3)) : MPoly3 :=
  l.foldl (fun acc i => qmul acc (xvar i)) qone

/-- The keys of the normal basis in Sage's order: supports of the normal
monomials [x1*x2, x0*x2, x2, x1, x0, 1]. -/
def normalMons : List Mon3 :=
  [(false, true, true), (true, false, true), (false, false, true),
   (false, true, false), (true, false, false), (false, false, false)]

/-- `Normal.from_polynomial`: re-key the monomials of the lifted
normal-form polynomial by their supports; as a coordinate vector over the
normal basis keys this is the coefficient list (it doubles as
`to_vector` of the resulting element). -/
def normalFromPolynomial (p : MPoly3) : List ℤ := normalMons.map p

/-- `Normal.to_polynomial_on_basis` (and `NBC.to_polynomial_on_basis`):
the product of the variables indexed by the key, computed in the
quotient ring. -/
def toPolyOnBasisOfKey (m : Mon3) : MPoly3 := prodVarsQ (monIndices m)

/-- The keys of the NBC basis in the order of the doctests:
the no-broken-circuit sets of the braid(3) matroid. -/
def nbcKeys : List Mon3 :=
  [(false, false, false), (true, false, false), (false, true, false),
   (false, false, true), (true, true, false), (true, false, true)]

/-- Modelled from the spec: the walls of each braid(3) chamber (the facet
hyperplanes of the region with the chamber's side of each), supplied by
the external arrangement machinery; `Covector.to_polynomial_on_basis`
multiplies x_i for a wall on the positive side and (1 - x_i) on the
negative side.  Keys are listed in the order of `C.basis()`. -/
def braidWalls : List (List ℤ × List (Fin 3 × Bool)) :=
  [([1, 1, 1], [(0, true), (1, true)]),
   ([1, -1, 1], [(1, false), (2, true)]),
   ([1, -1, -1], [(0, true), (2, false)]),
   ([-1, -1, -1], [(0, false), (1, false)]),
   ([-1, 1, -1], [(1, true), (2, false)]),
   ([-1, 1, 1], [(0, false), (2, true)])]

/-- The wall product of `Covector.to_polynomial_on_basis`. -/
def wallProduct (walls : List (Fin 3 × Bool)) : MPoly3 :=
  walls.foldl
    (fun acc ib => qmul acc (if ib.2 then xvar ib.1 else qsub qone (xvar ib.1)))
    qone

/-- The polynomials of the normal basis keys, in order. -/
def normalToPols : List MPoly3 := normalMons.map toPolyOnBasisOfKey

/-- The polynomials of the NBC basis keys, in order. -/
def nbcToPols : List MPoly3 := nbcKeys.map toPolyOnBasisOfKey

/-- The polynomials of the covector basis keys, in order. -/
def covToPols : List MPoly3 := braidWalls.map (fun kv => wallProduct kv.2)

/-- `MoseleyAlgebra.change_of_basis_matrix(basis0, X)`: one row per basis0
key, holding the normal-basis coordinates of the key's polynomial. -/
def cobMatrixToNormal (toPol : List MPoly3) : List (List ℤ) :=
  toPol.map normalFromPolynomial

/-- The change-of-basis matrix from the covector basis to the normal basis
matches the doctest of `change_of_basis_matrix` row for row. -/
example : cobMatrixToNormal covToPols =
    [[1, 1, -1, 0, 0, 0], [-1, 0, 1, 0, 0, 0], [0, -1, 0, 0, 1, 0],
     [1, 1, -1, -1, -1, 1], [-1, 0, 0, 1, 0, 0], [0, -1, 1, 0, 0, 0]] := by
  decide

/-- The change-of-basis matrix from the NBC basis to the normal basis
matches the doctest of `change_of_basis_matrix` row for row. -/
example : cobMatrixToNormal nbcToPols =
    [[0, 0, 0, 0, 0, 1], [0, 0, 0, 0, 1, 0], [0, 0, 0, 1, 0, 0],
     [0, 0, 1, 0, 0, 0], [1, 1, -1, 0, 0, 0], [0, 1, 0, 0, 0, 0]] := by
  decide

/-- Pick the first row with a nonzero leading entry, returning it and the
remaining rows. -/
def pickPivot : List (List ℤ) → Option (List ℤ × List (List ℤ))
  | [] => none
  | r :: rs =>
    if r.headD 0 ≠ 0 then some (r, rs)
    else
      match pickPivot rs with
      | some (p, rest) => some (p, r :: rest)
      | none => none

/-- Eliminate the leading entry of `r` against the pivot row `p` by the
cross-multiplied row operation (scaling an equation does not change its
solutions), dropping the resulting leading zero. -/
def elimColumn (p r : List ℤ) : List ℤ :=
  (List.zipWith (fun a b => p.headD 0 * a - r.headD 0 * b) r p).drop 1

/-- Forward elimination: `k` pivot steps. -/
def triangularize : ℕ → List (List ℤ) → Option (List (List ℤ))
  | 0, _ => some []
  | k + 1, rows =>
    match pickPivot rows with
    | none => none
    | some (p, rest) =>
      match triangularize k (rest.map (elimColumn p)) with
      | some t => some (p :: t)
      | none => none

/-- Sum of exact fractions represented as (numerator, denominator). -/
def ratAdd (x y : ℤ × ℤ) : ℤ × ℤ := (x.1 * y.2 + y.1 * x.2, x.2 * y.2)

/-- Integer multiple of an exact fraction. -/
def ratMulInt (c : ℤ) (x : ℤ × ℤ) : ℤ × ℤ := (c * x.1, x.2)

/-- Back substitution on the triangular rows; each row
[a, c_1, ..., c_r, b] encodes a * y + sum c_i * y_i = b, solved as exact
fractions. -/
def backSub : List (List ℤ) → List (ℤ × ℤ)
  | [] => []
  | row :: rest =>
    let ys := backSub rest
    let a := row.headD 1
    let cb := row.drop 1
    let b := cb.getLastD 0
    let cs := cb.dropLast
    let s := (List.zipWith ratMulInt cs ys).foldl ratAdd ((0 : ℤ), (1 : ℤ))
    let y := ratAdd ((b, 1) : ℤ × ℤ) ((-s.1, s.2) : ℤ × ℤ)
    (y.1, y.2 * a) :: ys

/-- Modelled from the spec: `M.solve_left(v)` solves x * M = v against the
change-of-basis matrix; implemented by Gaussian elimination on the
transposed system (one equation per column of M), with exact fractional
back substitution. -/
def solveLeft (M : List (List ℤ)) (v : List ℤ) : Option (List (ℤ × ℤ)) :=
  let rows := (List.range v.length).map
    (fun j => (M.map (fun row => row.getD j 0)) ++ [v.getD j 0])
  (triangularize M.length rows).map backSub

/-- `Bases.ParentMethods.to_polynomial`: the sum over the element's
(monomial, coefficient) pairs of the coefficient times the key's
polynomial. -/
def toPolynomialElem (toPol : List MPoly3) (coeffs : List ℤ) : MPoly3 :=
  fun u => ((toPol.zip coeffs).map (fun pc => pc.2 * pc.1 u)).sum

/-- `Bases.ParentMethods.from_polynomial`: express the polynomial in the
normal basis, solve the linear system against the change-of-basis matrix,
and rebuild the element from the solution vector. -/
def fromPolynomialGeneric (toPol : List MPoly3) (p : MPoly3) :
    Option (List (ℤ × ℤ)) :=
  solveLeft (cobMatrixToNormal toPol) (normalFromPolynomial p)

/-- The k-th standard coefficient vector of a rank-6 basis. -/
def unitVec6 (k : ℕ) : List ℤ :=
  (List.range 6).map (fun i => if i = k then 1 else 0)

/-- Value equality of an exact fraction with an integer. -/
def ratEqIntB (x : ℤ × ℤ) (z : ℤ) : Bool :=
  x.2 ≠ 0 && x.1 = z * x.2

/-- Whether a fraction vector equals the k-th standard basis vector of
rank 6 in value. -/
def vecEqUnitB (l : List (ℤ × ℤ)) (k : ℕ) : Bool :=
  l.length = 6 &&
    (List.range 6).all (fun i =>
      ratEqIntB (l.getD i (0, 1)) (if i = k then 1 else 0))

/-- The generic round trip for one basis key: convert the k-th basis
element to a polynomial and back, and compare with the k-th standard
vector in value. -/
def roundTripChk (toPol : List MPoly3) (k : ℕ) : Bool :=
  match fromPolynomialGeneric toPol (toPolynomialElem toPol (unitVec6 k)) with
  | none => false
  | some l => vecEqUnitB l k

/-- C4.  For every basis element of each of the three bases of the
braid(3) Varchenko-Gelfand algebra, from_polynomial(to_polynomial(b))
returns b: the normal basis through its direct re-keying
from_polynomial, and the NBC and covector bases through the generic
linear-solve from_polynomial. -/
theorem C4_from_to_polynomial_round_trip :
    (∀ k < 6, normalFromPolynomial
        (toPolynomialElem normalToPols (unitVec6 k)) = unitVec6 k) ∧
    (∀ k < 6, roundTripChk nbcToPols k = true) ∧
    (∀ k < 6, roundTripChk covToPols k = true) := by
  refine ⟨?_, ?_, ?_⟩ <;> decide

/-- Witness for C4 at the key of index 2 of each basis. -/
theorem C4_from_to_polynomial_round_trip_witness :
    ((2 : ℕ) < 6) ∧
    normalFromPolynomial (toPolynomialElem normalToPols (unitVec6 2)) =
      unitVec6 2 ∧
    roundTripChk nbcToPols 2 = true ∧
    roundTripChk covToPols 2 = true :=
  ⟨by decide, C4_from_to_polynomial_round_trip.1 2 (by decide),
    C4_from_to_polynomial_round_trip.2.1 2 (by decide),
    C4_from_to_polynomial_round_trip.2.2 2 (by decide)⟩

/-- `Covector.__getitem__`: raises ValueError when the requested covector
is not a key of the basis, else returns the basis element of that key
(represented by the key). -/
def covGetitem (cv : List ℤ) : Except PyErr (List ℤ) :=
  if cv ∈ braidCovectors then .ok cv else .error .valueError

/-- `Covector.to_polynomial_on_basis`: raises ValueError when the covector
contains a zero entry; otherwise looks the covector up in the chamber
dictionary `_covector_to_region` - a plain dict access, which raises
KeyError for a missing key - and multiplies the wall factors of the
region. -/
def covToPolynomialOnBasis (cv : List ℤ) : Except PyErr MPoly3 :=
  if (0 : ℤ) ∈ cv then .error .valueError
  else
    match braidWalls.lookup cv with
    | none => .error .keyError
    | some walls => .ok (wallProduct walls)

/-- C7 (counterexample).  The covector (1, 1, -1) has no zero entry and is
not the sign vector of any braid(3) chamber; to_polynomial_on_basis
raises KeyError on it, not the ValueError the claim asserts. -/
theorem C7_counterexample :
    covToPolynomialOnBasis [1, 1, -1] = .error .keyError ∧
    (Except.error PyErr.keyError : Except PyErr MPoly3) ≠
      .error .valueError := by
  constructor
  · rfl
  · simp

/-- C7 (amended).  Element lookup C[...] raises ValueError exactly on
non-keys (covectors with a zero entry included, since every key is a
chamber sign vector); to_polynomial_on_basis raises ValueError on
covectors containing a zero entry and KeyError on zero-free covectors of
no chamber; both operations succeed on every chamber sign vector. -/
theorem C7_covector_validation :
    (∀ cv : List ℤ,
      covGetitem cv = .error .valueError ↔ cv ∉ braidCovectors) ∧
    (∀ cv : List ℤ, (0 : ℤ) ∈ cv →
      covToPolynomialOnBasis cv = .error .valueError) ∧
    (∀ cv ∈ braidCovectors,
      covGetitem cv = .ok cv ∧ (covToPolynomialOnBasis cv).isOk = true) ∧
    (∀ cv : List ℤ, (0 : ℤ) ∉ cv → cv ∉ braidCovectors →
      covToPolynomialOnBasis cv = .error .keyError) := by
  refine ⟨?_, ?_, ?_, ?_⟩
  · intro cv
    rw [covGetitem]
    split_ifs with h
    · simp [h]
    · simp [h]
  · intro cv h0
    rw [covToPolynomialOnBasis, if_pos h0]
  · intro cv hcv
    fin_cases hcv <;> exact ⟨by rfl, by decide⟩
  · intro cv h0 hnc
    rw [covToPolynomialOnBasis, if_neg h0]
    simp only [braidCovectors, List.mem_cons, List.not_mem_nil, or_false,
      not_or] at hnc
    obtain ⟨h1, h2, h3, h4, h5, h6⟩ := hnc
    simp [braidWalls, List.lookup, beq_eq_false_iff_ne.mpr h1,
      beq_eq_false_iff_ne.mpr h2, beq_eq_false_iff_ne.mpr h3,
      beq_eq_false_iff_ne.mpr h4, beq_eq_false_iff_ne.mpr h5,
      beq_eq_false_iff_ne.mpr h6]

/-- Witness for C7: the ValueError on a zero-entry covector, success on
the chamber (1, -1, 1), and the KeyError on the zero-free non-chamber
(-1, -1, 1). -/
theorem C7_covector_validation_witness :
    ((0 : ℤ) ∈ ([0, 1, 1] : List ℤ) ∧
      covToPolynomialOnBasis [0, 1, 1] = .error .valueError) ∧
    ([1, -1, 1] ∈ braidCovectors ∧
      covGetitem [1, -1, 1] = .ok [1, -1, 1] ∧
      (covToPolynomialOnBasis [1, -1, 1]).isOk = true) ∧
    ((0 : ℤ) ∉ ([-1, -1, 1] : List ℤ) ∧
      [-1, -1, 1] ∉ braidCovectors ∧
      covToPolynomialOnBasis [-1, -1, 1] = .error .keyError) :=
  ⟨⟨by decide, C7_covector_validation.2.1 [0, 1, 1] (by decide)⟩,
    ⟨by decide, C7_covector_validation.2.2.1 [1, -1, 1] (by decide)⟩,
    ⟨by decide, by decide,
      C7_covector_validation.2.2.2 [-1, -1, 1] (by decide) (by decide)⟩⟩
